import Mathlib

/-!
A shallow embedding of `src/common/Common.ts` (lwc-dev-mobile-core): the
`MapUtils.filter` helper, the `CommandLineUtils` flag helpers, and the
`Version` value type with its parsing factory (`Version.from`) and its
comparison operations.

JavaScript strings are sequences of UTF-16 code units; we model them as
lists of natural-number code units.  All string literals the code
distinguishes (`'ios'`, `'android'`, digits, `'.'`, `'-'`) are ASCII, so
the ASCII case mapping below reproduces `toLowerCase` on every character
the code's comparisons can tell apart.
-/

/-- A JavaScript string, as its list of UTF-16 code units. -/
abbrev JSString := List Nat

/-- The code units of an ASCII string literal, for concrete inputs. -/
def codes (s : String) : JSString := s.data.map Char.toNat

/-- The whitespace code points removed by `String.prototype.trim`
(tab, LF, VT, FF, CR, space, NBSP, BOM). -/
def isJsWhitespace (n : Nat) : Bool :=
  decide (n = 9 ∨ n = 10 ∨ n = 11 ∨ n = 12 ∨ n = 13 ∨ n = 32 ∨ n = 160 ∨ n = 65279)

/-- `s.trim()`: drop whitespace from both ends. -/
def jsTrim (s : JSString) : JSString :=
  ((s.dropWhile isJsWhitespace).reverse.dropWhile isJsWhitespace).reverse

/-- `toLowerCase()` on one code unit (ASCII case mapping: `A`..`Z` is 65..90,
mapped 32 up to `a`..`z`). -/
def jsToLower (n : Nat) : Nat :=
  if 65 ≤ n ∧ n ≤ 90 then n + 32 else n

/-- The character class `[0-9\-\.]` of the `acceptedRange` regex in
`Version.from`: digits are code units 48..57, `-` is 45, `.` is 46. -/
def acceptedChar (n : Nat) : Bool :=
  decide ((48 ≤ n ∧ n ≤ 57) ∨ n = 45 ∨ n = 46)

/-- The global regex replacement of separators in `Version.from`, on one code
unit: `-` (45) becomes `.` (46). -/
def dashToDot (n : Nat) : Nat := if n = 45 then 46 else n

/-- `s.split('.')`: split at every `.` (46).  As in JavaScript, the result is
always non-empty and the empty string splits into `[""]`. -/
def splitDot : JSString → List JSString
  | [] => [[]]
  | c :: cs =>
    if c = 46 then [] :: splitDot cs
    else
      match splitDot cs with
      | [] => [[c]]
      | t :: ts => (c :: t) :: ts

/-- Decimal digit code units `0`..`9`. -/
def isDigitCode (n : Nat) : Bool := decide (48 ≤ n ∧ n ≤ 57)

/-- The value of the longest leading run of decimal digits of `s`, or `none`
when `s` does not start with a digit. -/
def parseDigits (s : JSString) : Option Nat :=
  let ds := s.takeWhile isDigitCode
  if ds.isEmpty then none
  else some (ds.foldl (fun a c => a * 10 + (c - 48)) 0)

/-- `Number.parseInt(s, 10)`: skip leading whitespace, read an optional sign
followed by a run of decimal digits, ignore anything after the digits; the
`NaN` outcome (no digits at all) is `none`. -/
def parseIntJS (s : JSString) : Option Int :=
  let t := s.dropWhile isJsWhitespace
  if t.headD 0 = 45 then (parseDigits (t.drop 1)).map (fun n => -(Int.ofNat n))
  else if t.headD 0 = 43 then (parseDigits (t.drop 1)).map (fun n => Int.ofNat n)
  else (parseDigits t).map (fun n => Int.ofNat n)

/-- The error thrown by `Version.from` (`Invalid version string: ${input}`),
carrying the original, untrimmed input. -/
structure ParseError where
  input : JSString
deriving DecidableEq

/-- The `Version` class: `major.minor.patch`, JavaScript numbers modelled as
integers. -/
structure Version where
  major : Int
  minor : Int
  patch : Int
deriving DecidableEq

/-- The tail of `Version.from`: the `Number.isNaN` guard (`NaN` is `none`)
followed by `new Version(major, minor, patch)`. -/
def combineParts (input : JSString) (major minor patch : Option Int) :
    Except ParseError Version :=
  match major, minor, patch with
  | some ma, some mi, some pa => .ok ⟨ma, mi, pa⟩
  | _, _, _ => .error ⟨input⟩

/-- The middle of `Version.from`: the three guarded
`parts.length >= k ? Number.parseInt(parts[k-1], 10) : 0` reads, fed into the
`NaN` guard and the constructor. -/
def versionOfParts (input : JSString) (parts : List JSString) :
    Except ParseError Version :=
  combineParts input
    (if 1 ≤ parts.length then parseIntJS (parts.getD 0 []) else some 0)
    (if 2 ≤ parts.length then parseIntJS (parts.getD 1 []) else some 0)
    (if 3 ≤ parts.length then parseIntJS (parts.getD 2 []) else some 0)

/-- `Version.from(input)`:
trim and lower-case the input, reject it when anything outside `[0-9\-\.]`
remains, replace `-` by `.`, split on `.`, parse the first three segments
(missing segments default to 0), and reject the input again when any of the
three parses is `NaN`. -/
def Version.fromString (input : JSString) : Except ParseError Version :=
  let original := (jsTrim input).map jsToLower
  let invalidChars := original.filter (fun c => !acceptedChar c)
  if 0 < invalidChars.length then
    .error ⟨input⟩
  else
    versionOfParts input (splitDot (original.map dashToDot))

/-- `compare(another)`: weigh the fields into one scalar per version
(`major*100 + minor*10 + patch`) and compare the scalars three-way. -/
def Version.compare (a b : Version) : Int :=
  let v1 := a.major * 100 + a.minor * 10 + a.patch
  let v2 := b.major * 100 + b.minor * 10 + b.patch
  if v1 = v2 then 0
  else if v1 < v2 then -1
  else 1

/-- `same(inputVersion)`: `compare(inputVersion) === 0`. -/
def Version.same (a b : Version) : Bool := a.compare b == 0

/-- `sameOrNewer(inputVersion)`: `compare(inputVersion) > -1`. -/
def Version.sameOrNewer (a b : Version) : Bool := decide (a.compare b > -1)

namespace MapUtils

/-- JavaScript `Map.prototype.set`: overwrite the value of an existing key in
place, otherwise append the new entry in insertion order. -/
def mapSet {K V : Type} [DecidableEq K] (m : List (K × V)) (k : K) (v : V) :
    List (K × V) :=
  if k ∈ m.map Prod.fst then
    m.map (fun kv => if kv.1 = k then (k, v) else kv)
  else
    m ++ [(k, v)]

/-- `MapUtils.filter(map, predicate)`: start from a fresh map, return it at
once when the input is null (`none`), otherwise walk the entries in order and
`set` those on which the predicate returns true. -/
def filter {K V : Type} [DecidableEq K] (map : Option (List (K × V)))
    (predicate : K → V → Bool) : List (K × V) :=
  match map with
  | none => []
  | some entries =>
    entries.foldl
      (fun aMap kv => if predicate kv.1 kv.2 then mapSet aMap kv.1 kv.2 else aMap)
      []

end MapUtils

namespace CommandLineUtils

/-- `CommandLineUtils.IOS_FLAG`. -/
def IOS_FLAG : JSString := codes "ios"

/-- `CommandLineUtils.ANDROID_FLAG`. -/
def ANDROID_FLAG : JSString := codes "android"

/-- `platformFlagIsIOS(input)`: an absent (`undefined`/`null`) input is
`none`; JavaScript truthiness makes the empty string falsy, so only a
present, non-empty string is lower-cased and compared with `'ios'`. -/
def platformFlagIsIOS (input : Option JSString) : Bool :=
  match input with
  | some s => if !s.isEmpty then s.map jsToLower == IOS_FLAG else false
  | none => false

/-- `platformFlagIsAndroid(input)`: as `platformFlagIsIOS`, against
`'android'`. -/
def platformFlagIsAndroid (input : Option JSString) : Bool :=
  match input with
  | some s => if !s.isEmpty then s.map jsToLower == ANDROID_FLAG else false
  | none => false

/-- `platformFlagIsValid(platformFlag)`. -/
def platformFlagIsValid (platformFlag : Option JSString) : Bool :=
  platformFlagIsIOS platformFlag || platformFlagIsAndroid platformFlag

/-- A JavaScript runtime value, for the `any`-typed `flag` parameter of
`resolveFlag`. -/
inductive JSVal where
  | str (s : JSString)
  | num (n : Int)
  | boolean (b : Bool)
  | null
  | undef
deriving DecidableEq

/-- JavaScript truthiness. -/
def JSVal.truthy : JSVal → Bool
  | .str s => !s.isEmpty
  | .num n => n != 0
  | .boolean b => b
  | .null => false
  | .undef => false

/-- Reading the `length` property: strings have one; on every other value
here the access yields `undefined`, modelled as `none`. -/
def JSVal.lengthProp : JSVal → Option Nat
  | .str s => some s.length
  | _ => none

/-- `resolveFlag(flag, defaultValue)`: the `flag as string` cast changes
nothing at runtime, so `resolvedFlag && resolvedFlag.length > 0` holds
exactly for truthy values whose `length` is a number greater than 0
(`undefined > 0` is false in JavaScript); only a non-empty string passes,
and then the flag itself is returned. -/
def resolveFlag (flag : JSVal) (defaultValue : JSString) : JSString :=
  let resolvedFlag := flag
  if resolvedFlag.truthy &&
      (match resolvedFlag.lengthProp with
       | some l => decide (l > 0)
       | none => false) then
    match resolvedFlag with
    | .str s => s
    | _ => defaultValue
  else
    defaultValue

end CommandLineUtils

/-- The segment decomposition the specification describes: trim the input,
replace `-` by `.`, split on `.` (it does not mention the lower-casing, which
fixes every accepted character). -/
def specSegments (input : JSString) : List JSString :=
  splitDot ((jsTrim input).map dashToDot)

/-- Two parse results have the same outcome when both fail or both succeed
with the same version (error payloads aside). -/
def sameOutcome : Except ParseError Version → Except ParseError Version → Bool
  | .ok v, .ok w => v == w
  | .error _, .error _ => true
  | _, _ => false

/-- The three-way integer comparison the specification describes: `-1` when
the first argument is smaller, `0` when they are equal, `1` when it is
larger. -/
def threeWay (x y : Int) : Int :=
  if x < y then -1 else if x = y then 0 else 1

example : Version.fromString (codes "13.0.4") = .ok ⟨13, 0, 4⟩ := by rfl
example : Version.fromString (codes "13-0-4") = .ok ⟨13, 0, 4⟩ := by rfl
example : Version.fromString (codes "13") = .ok ⟨13, 0, 0⟩ := by rfl
example : (Version.fromString (codes "13.0.")).toOption = none := by rfl
example : (Version.fromString (codes "abc")).toOption = none := by rfl
example : (Version.fromString (codes "")).toOption = none := by rfl
example : (Version.fromString (codes "  ")).toOption = none := by rfl
example : (Version.fromString (codes " 1.2.3.999 ")).toOption = some ⟨1, 2, 3⟩ := by rfl

/-! ### Character-level helper lemmas -/

theorem jsToLower_accepted {n : Nat} (h : acceptedChar n = true) : jsToLower n = n := by
  unfold acceptedChar at h
  have h' := of_decide_eq_true h
  unfold jsToLower
  split
  · omega
  · rfl

theorem acceptedChar_jsToLower (n : Nat) : acceptedChar (jsToLower n) = acceptedChar n := by
  unfold jsToLower acceptedChar
  split
  · exact decide_eq_decide.mpr (by omega)
  · rfl

theorem map_jsToLower_id {l : JSString} (h : ∀ c ∈ l, acceptedChar c = true) :
    l.map jsToLower = l := by
  induction l with
  | nil => rfl
  | cons a t ih =>
    simp only [List.map_cons]
    rw [jsToLower_accepted (h a (by simp)), ih (fun c hc => h c (by simp [hc]))]

theorem invalid_filter_map_jsToLower (l : JSString) :
    ((l.map jsToLower).filter fun c => !acceptedChar c) =
      (l.filter fun c => !acceptedChar c).map jsToLower := by
  rw [List.filter_map]
  congr 1
  apply List.filter_congr
  intro c _
  simp [Function.comp, acceptedChar_jsToLower c]

theorem invalid_pos_iff (l : JSString) :
    (0 < ((l.map jsToLower).filter fun c => !acceptedChar c).length) ↔
      ∃ c ∈ l, acceptedChar c = false := by
  rw [invalid_filter_map_jsToLower, List.length_map, List.length_pos, Ne,
    List.filter_eq_nil_iff]
  push_neg
  constructor
  · rintro ⟨c, hc, hp⟩
    exact ⟨c, hc, by simpa using hp⟩
  · rintro ⟨c, hc, hp⟩
    exact ⟨c, hc, by simpa using hp⟩

/-! ### Easy claim theorems: comparison and flag helpers -/

/-- C3: `compare` is the three-way comparison of the decimally weighted
scalars `major*100 + minor*10 + patch`; in particular `1.10.0` and `2.0.0`
compare as equal (both scalars are 200). -/
theorem version_compare_is_threeWay (a b : Version) :
    a.compare b =
      threeWay (a.major * 100 + a.minor * 10 + a.patch)
        (b.major * 100 + b.minor * 10 + b.patch) ∧
    ((Version.fromString (codes "1.10.0")).toOption.bind fun v =>
        (Version.fromString (codes "2.0.0")).toOption.map fun w => v.compare w) =
      some 0 := by
  constructor
  · simp only [Version.compare, threeWay]
    split_ifs <;> omega
  · rfl

/-- C10: comparison is antisymmetric (`a.compare b = -(b.compare a)`), hence
`same` is symmetric and at least one of `a.sameOrNewer b`, `b.sameOrNewer a`
holds. -/
theorem version_compare_antisymmetric (a b : Version) :
    a.compare b = -(b.compare a) ∧
    a.same b = b.same a ∧
    (a.sameOrNewer b = true ∨ b.sameOrNewer a = true) := by
  have h : a.compare b = -(b.compare a) := by
    simp only [Version.compare]
    split_ifs <;> omega
  refine ⟨h, ?_, ?_⟩
  · simp only [Version.same, h]
    exact decide_eq_decide.mpr (by omega)
  · rcases le_or_lt 0 (b.compare a) with h1 | h1
    · exact Or.inr (by simp only [Version.sameOrNewer]; exact decide_eq_true (by omega))
    · exact Or.inl (by simp only [Version.sameOrNewer]; exact decide_eq_true (by omega))

/-- C8: `platformFlagIsIOS` is true exactly on a present, non-empty input
whose lower-casing is `"ios"` (false on the empty string and on an absent
input), and `platformFlagIsValid` is true exactly when one of the two
platform predicates is. -/
theorem platform_flag_spec (input : Option JSString) :
    (CommandLineUtils.platformFlagIsIOS input = true ↔
      ∃ s, input = some s ∧ s ≠ [] ∧ s.map jsToLower = codes "ios") ∧
    (CommandLineUtils.platformFlagIsValid input = true ↔
      (CommandLineUtils.platformFlagIsIOS input = true ∨
        CommandLineUtils.platformFlagIsAndroid input = true)) ∧
    CommandLineUtils.platformFlagIsIOS (some (codes "IOS")) = true ∧
    CommandLineUtils.platformFlagIsIOS (some (codes "Android")) = false ∧
    CommandLineUtils.platformFlagIsIOS (some (codes "")) = false ∧
    CommandLineUtils.platformFlagIsIOS none = false := by
  refine ⟨?_, ?_, by decide, by decide, by decide, rfl⟩
  · cases input with
    | none => simp [CommandLineUtils.platformFlagIsIOS]
    | some s =>
      by_cases hs : s = []
      · subst hs
        simp [CommandLineUtils.platformFlagIsIOS]
      · simp [CommandLineUtils.platformFlagIsIOS, CommandLineUtils.IOS_FLAG, hs,
          List.isEmpty_iff, beq_iff_eq]
  · simp [CommandLineUtils.platformFlagIsValid]

/-- C9: `resolveFlag` returns the flag itself when the `as string` cast
yields a non-empty string, and the default value in every other case (absent,
null, empty, or not a string at all); the two documented examples hold. -/
theorem resolveFlag_spec (flag : CommandLineUtils.JSVal) (d : JSString) :
    (∀ s, flag = CommandLineUtils.JSVal.str s → s ≠ [] →
      CommandLineUtils.resolveFlag flag d = s) ∧
    ((∀ s, flag = CommandLineUtils.JSVal.str s → s = []) →
      CommandLineUtils.resolveFlag flag d = d) ∧
    CommandLineUtils.resolveFlag (CommandLineUtils.JSVal.str (codes ""))
      (codes "default") = codes "default" ∧
    CommandLineUtils.resolveFlag (CommandLineUtils.JSVal.str (codes "custom"))
      (codes "default") = codes "custom" := by
  refine ⟨?_, ?_, rfl, rfl⟩
  · rintro s rfl hs
    cases s with
    | nil => exact absurd rfl hs
    | cons a t =>
      simp [CommandLineUtils.resolveFlag, CommandLineUtils.JSVal.truthy,
        CommandLineUtils.JSVal.lengthProp]
  · intro h
    cases flag with
    | str s =>
      have hs := h s rfl
      subst hs
      rfl
    | num n =>
      simp [CommandLineUtils.resolveFlag, CommandLineUtils.JSVal.lengthProp]
    | boolean b =>
      simp [CommandLineUtils.resolveFlag, CommandLineUtils.JSVal.lengthProp]
    | null => rfl
    | undef => rfl

/-- C9 witness: the theorem at the concrete flag `"custom"`. -/
theorem resolveFlag_spec_witness :
    CommandLineUtils.resolveFlag (CommandLineUtils.JSVal.str (codes "custom"))
      (codes "default") = codes "custom" :=
  (resolveFlag_spec (CommandLineUtils.JSVal.str (codes "custom")) (codes "default")).1
    (codes "custom") rfl (by decide)

/-! ### Structural lemmas about the parser -/

theorem splitDot_ne_nil (l : JSString) : splitDot l ≠ [] := by
  cases l with
  | nil => simp [splitDot]
  | cons c cs =>
    unfold splitDot
    split
    · simp
    · split
      · simp
      · simp

theorem splitDot_mem_subset (l : JSString) :
    ∀ seg ∈ splitDot l, ∀ c ∈ seg, c ∈ l := by
  induction l with
  | nil =>
    intro seg hseg c hc
    simp [splitDot] at hseg
    subst hseg
    cases hc
  | cons a t ih =>
    intro seg hseg c hc
    unfold splitDot at hseg
    by_cases ha : a = 46
    · rw [if_pos ha] at hseg
      rcases List.mem_cons.mp hseg with h1 | h1
      · subst h1; cases hc
      · exact List.mem_cons_of_mem _ (ih seg h1 c hc)
    · rw [if_neg ha] at hseg
      rcases hsd : splitDot t with _ | ⟨u, us⟩
      · exact absurd hsd (splitDot_ne_nil t)
      · rw [hsd] at hseg
        rcases List.mem_cons.mp hseg with h1 | h1
        · subst h1
          rcases List.mem_cons.mp hc with h2 | h2
          · exact h2 ▸ List.mem_cons_self a t
          · exact List.mem_cons_of_mem _ (ih u (hsd ▸ List.mem_cons_self u us) c h2)
        · exact List.mem_cons_of_mem _ (ih seg (hsd ▸ List.mem_cons_of_mem u h1) c hc)

theorem not_mem_map_dashToDot (l : JSString) : 45 ∉ l.map dashToDot := by
  intro h
  obtain ⟨c, _, hcd⟩ := List.mem_map.mp h
  unfold dashToDot at hcd
  split at hcd <;> omega

theorem parseIntJS_nonneg {s : JSString} (hs : 45 ∉ s) {m : Int}
    (h : parseIntJS s = some m) : 0 ≤ m := by
  have hd : (s.dropWhile isJsWhitespace).headD 0 ≠ 45 := by
    intro hc
    apply hs
    rcases ht : s.dropWhile isJsWhitespace with _ | ⟨c, rest⟩
    · rw [ht] at hc; simp at hc
    · rw [ht, List.headD_cons] at hc
      subst hc
      exact (List.dropWhile_sublist isJsWhitespace).subset
        (ht ▸ List.mem_cons_self 45 rest)
  simp only [parseIntJS] at h
  rw [if_neg hd] at h
  by_cases h43 : (s.dropWhile isJsWhitespace).headD 0 = 43
  · rw [if_pos h43] at h
    obtain ⟨n, _, hnm⟩ := Option.map_eq_some'.mp h
    exact hnm ▸ Int.natCast_nonneg n
  · rw [if_neg h43] at h
    obtain ⟨n, _, hnm⟩ := Option.map_eq_some'.mp h
    exact hnm ▸ Int.natCast_nonneg n

theorem getD_mem {α : Type} {l : List α} {n : Nat} (h : n < l.length) (d : α) :
    l.getD n d ∈ l := by
  rw [List.getD_eq_getElem?_getD, List.getElem?_eq_getElem h, Option.getD_some]
  exact List.getElem_mem h

theorem take_getD {α : Type} (d : α) :
    ∀ (l : List α) (n i : Nat), i < n → (l.take n).getD i d = l.getD i d := by
  intro l
  induction l with
  | nil => intro n i _; simp
  | cons a t ih =>
    intro n i h
    cases n with
    | zero => omega
    | succ n =>
      cases i with
      | zero => simp
      | succ i =>
        simp only [List.take_succ_cons, List.getD_cons_succ]
        exact ih n i (by omega)

/-! ### Lemmas about `combineParts` and `versionOfParts` -/

theorem combineParts_ok_iff (inp : JSString) (o0 o1 o2 : Option Int) (v : Version) :
    combineParts inp o0 o1 o2 = Except.ok v ↔
      (o0 = some v.major ∧ o1 = some v.minor ∧ o2 = some v.patch) := by
  obtain ⟨vM, vm, vp⟩ := v
  rcases o0 with _ | a <;> rcases o1 with _ | b <;> rcases o2 with _ | c <;>
    simp [combineParts, Version.mk.injEq, and_assoc]

theorem combineParts_error_iff (inp : JSString) (o0 o1 o2 : Option Int) :
    (∃ e, combineParts inp o0 o1 o2 = Except.error e) ↔
      (o0 = none ∨ o1 = none ∨ o2 = none) := by
  rcases o0 with _ | a <;> rcases o1 with _ | b <;> rcases o2 with _ | c <;>
    simp [combineParts]

theorem combineParts_error_input {inp : JSString} {o0 o1 o2 : Option Int}
    {e : ParseError} (h : combineParts inp o0 o1 o2 = Except.error e) :
    e.input = inp := by
  rcases o0 with _ | a <;> rcases o1 with _ | b <;> rcases o2 with _ | c <;>
    simp only [combineParts] at h <;> cases h <;> rfl

theorem sameOutcome_combineParts (i1 i2 : JSString) (o0 o1 o2 : Option Int) :
    sameOutcome (combineParts i1 o0 o1 o2) (combineParts i2 o0 o1 o2) = true := by
  rcases o0 with _ | a <;> rcases o1 with _ | b <;> rcases o2 with _ | c <;>
    simp [combineParts, sameOutcome]

theorem versionOfParts_error_input {inp : JSString} {parts : List JSString}
    {e : ParseError} (h : versionOfParts inp parts = Except.error e) :
    e.input = inp := by
  unfold versionOfParts at h
  exact combineParts_error_input h

theorem versionOfParts_error_iff {parts : List JSString} (hne : parts ≠ [])
    (inp : JSString) :
    (∃ e, versionOfParts inp parts = Except.error e) ↔
      ∃ i, i < min 3 parts.length ∧ parseIntJS (parts.getD i []) = none := by
  unfold versionOfParts
  rw [combineParts_error_iff]
  have hlen : 1 ≤ parts.length := List.length_pos.mpr hne
  constructor
  · rintro (h | h | h)
    · rw [if_pos hlen] at h
      exact ⟨0, by omega, h⟩
    · by_cases h2 : 2 ≤ parts.length
      · rw [if_pos h2] at h; exact ⟨1, by omega, h⟩
      · rw [if_neg h2] at h; cases h
    · by_cases h3 : 3 ≤ parts.length
      · rw [if_pos h3] at h; exact ⟨2, by omega, h⟩
      · rw [if_neg h3] at h; cases h
  · rintro ⟨i, hi, hnone⟩
    have hi3 : i < 3 := by omega
    interval_cases i
    · exact Or.inl (by rw [if_pos hlen]; exact hnone)
    · exact Or.inr (Or.inl (by rw [if_pos (by omega : 2 ≤ parts.length)]; exact hnone))
    · exact Or.inr (Or.inr (by rw [if_pos (by omega : 3 ≤ parts.length)]; exact hnone))

theorem versionOfParts_ok {inp : JSString} {parts : List JSString} {v : Version}
    (hne : parts ≠ []) (h : versionOfParts inp parts = Except.ok v) :
    parseIntJS (parts.getD 0 []) = some v.major ∧
    (if 2 ≤ parts.length then parseIntJS (parts.getD 1 []) = some v.minor
      else v.minor = 0) ∧
    (if 3 ≤ parts.length then parseIntJS (parts.getD 2 []) = some v.patch
      else v.patch = 0) := by
  unfold versionOfParts at h
  rw [combineParts_ok_iff] at h
  obtain ⟨h0, h1, h2⟩ := h
  have hlen : 1 ≤ parts.length := List.length_pos.mpr hne
  rw [if_pos hlen] at h0
  refine ⟨h0, ?_, ?_⟩
  · split
    · next hc => rw [if_pos hc] at h1; exact h1
    · next hc =>
      rw [if_neg hc] at h1
      injection h1 with h1
      omega
  · split
    · next hc => rw [if_pos hc] at h2; exact h2
    · next hc =>
      rw [if_neg hc] at h2
      injection h2 with h2
      omega

theorem versionOfParts_take3 (i1 i2 : JSString) (P Q : List JSString)
    (h : P.take 3 = Q.take 3) :
    sameOutcome (versionOfParts i1 P) (versionOfParts i2 Q) = true := by
  have hlen : min 3 P.length = min 3 Q.length := by
    have hl := congrArg List.length h
    simpa [List.length_take] using hl
  have hgd : ∀ i, i < 3 → P.getD i [] = Q.getD i [] := by
    intro i hi
    rw [← take_getD [] P 3 i hi, h, take_getD [] Q 3 i hi]
  unfold versionOfParts
  have e0 : (if 1 ≤ P.length then parseIntJS (P.getD 0 []) else some 0) =
      (if 1 ≤ Q.length then parseIntJS (Q.getD 0 []) else some 0) := by
    by_cases h1 : 1 ≤ P.length
    · rw [if_pos h1, if_pos (by omega : 1 ≤ Q.length), hgd 0 (by omega)]
    · rw [if_neg h1, if_neg (by omega : ¬1 ≤ Q.length)]
  have e1 : (if 2 ≤ P.length then parseIntJS (P.getD 1 []) else some 0) =
      (if 2 ≤ Q.length then parseIntJS (Q.getD 1 []) else some 0) := by
    by_cases h1 : 2 ≤ P.length
    · rw [if_pos h1, if_pos (by omega : 2 ≤ Q.length), hgd 1 (by omega)]
    · rw [if_neg h1, if_neg (by omega : ¬2 ≤ Q.length)]
  have e2 : (if 3 ≤ P.length then parseIntJS (P.getD 2 []) else some 0) =
      (if 3 ≤ Q.length then parseIntJS (Q.getD 2 []) else some 0) := by
    by_cases h1 : 3 ≤ P.length
    · rw [if_pos h1, if_pos (by omega : 3 ≤ Q.length), hgd 2 (by omega)]
    · rw [if_neg h1, if_neg (by omega : ¬3 ≤ Q.length)]
  rw [e0, e1, e2]
  exact sameOutcome_combineParts i1 i2 _ _ _

/-! ### Case lemmas for `Version.fromString` -/

theorem fromString_invalid {input : JSString}
    (h : ∃ c ∈ jsTrim input, acceptedChar c = false) :
    Version.fromString input = Except.error ⟨input⟩ := by
  simp only [Version.fromString]
  rw [if_pos ((invalid_pos_iff (jsTrim input)).mpr h)]

theorem fromString_valid {input : JSString}
    (h : ∀ c ∈ jsTrim input, acceptedChar c = true) :
    Version.fromString input = versionOfParts input (specSegments input) := by
  simp only [Version.fromString, specSegments]
  rw [map_jsToLower_id h]
  have hfil : List.filter (fun c => !acceptedChar c) (jsTrim input) = [] :=
    List.filter_eq_nil_iff.mpr (fun a ha => by simp [h a ha])
  rw [hfil]
  rfl

theorem accepted_of_ok {input : JSString} {v : Version}
    (h : Version.fromString input = Except.ok v) :
    ∀ c ∈ jsTrim input, acceptedChar c = true := by
  by_contra hc
  push_neg at hc
  obtain ⟨c, hcm, hf⟩ := hc
  rw [fromString_invalid ⟨c, hcm, by simpa using hf⟩] at h
  cases h

theorem specSegments_ne_nil (input : JSString) : specSegments input ≠ [] := by
  simp only [specSegments]
  exact splitDot_ne_nil _

/-- C1: parsing fails with a `ParseError` carrying the untrimmed input exactly
when the trimmed input has a character outside `[0-9.-]`, or one of the first
`min 3 (number of segments)` segments has no parse as a base-10 integer; an
input whose trimming is empty always fails. -/
theorem version_from_failure_iff (input : JSString) :
    ((∃ e, Version.fromString input = Except.error e) ↔
      ((∃ c ∈ jsTrim input, acceptedChar c = false) ∨
        ∃ i, i < min 3 (specSegments input).length ∧
          parseIntJS ((specSegments input).getD i []) = none)) ∧
    (∀ e, Version.fromString input = Except.error e → e.input = input) ∧
    (jsTrim input = [] → ∃ e, Version.fromString input = Except.error e) := by
  have hne : specSegments input ≠ [] := specSegments_ne_nil input
  have hiff : (∃ e, Version.fromString input = Except.error e) ↔
      ((∃ c ∈ jsTrim input, acceptedChar c = false) ∨
        ∃ i, i < min 3 (specSegments input).length ∧
          parseIntJS ((specSegments input).getD i []) = none) := by
    by_cases hacc : ∀ c ∈ jsTrim input, acceptedChar c = true
    · rw [fromString_valid hacc, versionOfParts_error_iff hne input]
      have hnA : ¬∃ c ∈ jsTrim input, acceptedChar c = false := by
        rintro ⟨c, hc, hf⟩
        rw [hacc c hc] at hf
        cases hf
      rw [or_iff_right hnA]
    · have hA : ∃ c ∈ jsTrim input, acceptedChar c = false := by
        push_neg at hacc
        obtain ⟨c, hc, hf⟩ := hacc
        exact ⟨c, hc, by simpa using hf⟩
      constructor
      · intro _; exact Or.inl hA
      · intro _; exact ⟨⟨input⟩, fromString_invalid hA⟩
  refine ⟨hiff, fun e h => ?_, fun ht => ?_⟩
  · by_cases hacc : ∀ c ∈ jsTrim input, acceptedChar c = true
    · rw [fromString_valid hacc] at h
      exact versionOfParts_error_input h
    · have hA : ∃ c ∈ jsTrim input, acceptedChar c = false := by
        push_neg at hacc
        obtain ⟨c, hc, hf⟩ := hacc
        exact ⟨c, hc, by simpa using hf⟩
      rw [fromString_invalid hA] at h
      cases h
      rfl
  · apply hiff.mpr
    refine Or.inr ⟨0, ?_, ?_⟩
    · have h1 : 1 ≤ (specSegments input).length := List.length_pos.mpr hne
      omega
    · simp only [specSegments, ht]
      rfl

/-- C1 witness: `"abc"` fails with the error carrying `"abc"` itself. -/
theorem version_from_failure_iff_witness :
    Version.fromString (codes "abc") = Except.error ⟨codes "abc"⟩ := by
  obtain ⟨e, he⟩ := (version_from_failure_iff (codes "abc")).1.mpr
    (Or.inl ⟨97, by decide, by decide⟩)
  have h2 := (version_from_failure_iff (codes "abc")).2.1 e he
  rcases e with ⟨inp⟩
  have h3 : inp = codes "abc" := h2
  subst h3
  exact he

/-- C2: on success, the version's fields are the base-10 parses of the first
three trimmed, dash-normalized, dot-split segments, missing trailing segments
defaulting to 0; in particular `"13.0.4"`, `"13-0-4"` and `"13"` parse to
13.0.4, 13.0.4 and 13.0.0. -/
theorem version_from_segments (input : JSString) (v : Version)
    (h : Version.fromString input = Except.ok v) :
    parseIntJS ((specSegments input).getD 0 []) = some v.major ∧
    (if 2 ≤ (specSegments input).length
      then parseIntJS ((specSegments input).getD 1 []) = some v.minor
      else v.minor = 0) ∧
    (if 3 ≤ (specSegments input).length
      then parseIntJS ((specSegments input).getD 2 []) = some v.patch
      else v.patch = 0) ∧
    Version.fromString (codes "13.0.4") = Except.ok ⟨13, 0, 4⟩ ∧
    Version.fromString (codes "13-0-4") = Except.ok ⟨13, 0, 4⟩ ∧
    Version.fromString (codes "13") = Except.ok ⟨13, 0, 0⟩ := by
  rw [fromString_valid (accepted_of_ok h)] at h
  obtain ⟨h0, h1, h2⟩ := versionOfParts_ok (specSegments_ne_nil input) h
  exact ⟨h0, h1, h2, rfl, rfl, rfl⟩

/-- C2 witness: the theorem at the concrete input `"13.0.4"`. -/
theorem version_from_segments_witness :
    parseIntJS ((specSegments (codes "13.0.4")).getD 0 []) = some (13 : Int) :=
  (version_from_segments (codes "13.0.4") ⟨13, 0, 4⟩ (by rfl)).1

/-- C4: every successfully parsed version has non-negative major, minor and
patch fields. -/
theorem version_from_nonneg (input : JSString) (v : Version)
    (h : Version.fromString input = Except.ok v) :
    0 ≤ v.major ∧ 0 ≤ v.minor ∧ 0 ≤ v.patch := by
  rw [fromString_valid (accepted_of_ok h)] at h
  obtain ⟨h0, h1, h2⟩ := versionOfParts_ok (specSegments_ne_nil input) h
  have hseg : ∀ i : Nat, 45 ∉ (specSegments input).getD i [] := by
    intro i hmem
    by_cases hi : i < (specSegments input).length
    · refine not_mem_map_dashToDot (jsTrim input) ?_
      exact splitDot_mem_subset ((jsTrim input).map dashToDot) _
        (getD_mem hi []) 45 hmem
    · rw [List.getD_eq_getElem?_getD, List.getElem?_eq_none (by omega)] at hmem
      cases hmem
  refine ⟨parseIntJS_nonneg (hseg 0) h0, ?_, ?_⟩
  · split at h1
    · exact parseIntJS_nonneg (hseg 1) h1
    · omega
  · split at h2
    · exact parseIntJS_nonneg (hseg 2) h2
    · omega

/-- C4 witness: the theorem at the concrete input `"13.0.4"`. -/
theorem version_from_nonneg_witness :
    0 ≤ (Version.mk 13 0 4).major ∧ 0 ≤ (Version.mk 13 0 4).minor ∧
      0 ≤ (Version.mk 13 0 4).patch :=
  version_from_nonneg (codes "13.0.4") ⟨13, 0, 4⟩ (by rfl)

/-! ### C5: segments beyond the third -/

/-- C5 counterexample: `"1.2.3.4"` and `"1.2.3.x"` have identical first three
segments and differ only in the fourth, yet the first parses and the second
fails (the character validation runs over the whole string, fourth segment
included). -/
theorem version_segments_counterexample :
    (specSegments (codes "1.2.3.4")).take 3 = (specSegments (codes "1.2.3.x")).take 3 ∧
    (Version.fromString (codes "1.2.3.4")).toOption = some ⟨1, 2, 3⟩ ∧
    (Version.fromString (codes "1.2.3.x")).toOption = none :=
  ⟨by rfl, by rfl, by rfl⟩

/-- C5 (amended): among inputs that pass the character validation, the fourth
and later segments are never integer-parsed: two such inputs with the same
first three segments parse to the same outcome. -/
theorem version_from_ignores_tail (s t : JSString)
    (hs : ∀ c ∈ jsTrim s, acceptedChar c = true)
    (ht : ∀ c ∈ jsTrim t, acceptedChar c = true)
    (h3 : (specSegments s).take 3 = (specSegments t).take 3) :
    sameOutcome (Version.fromString s) (Version.fromString t) = true := by
  rw [fromString_valid hs, fromString_valid ht]
  exact versionOfParts_take3 s t _ _ h3

/-- C5 witness: `"1.2.3.999"` and `"1.2.3"` parse to the same outcome. -/
theorem version_from_ignores_tail_witness :
    sameOutcome (Version.fromString (codes "1.2.3.999"))
      (Version.fromString (codes "1.2.3")) = true :=
  version_from_ignores_tail (codes "1.2.3.999") (codes "1.2.3")
    (by decide) (by decide) (by rfl)

/-! ### C6: hyphens and periods are interchangeable -/

theorem isJsWhitespace_dashToDot (n : Nat) :
    isJsWhitespace (dashToDot n) = isJsWhitespace n := by
  unfold dashToDot
  split
  · next h => subst h; rfl
  · rfl

theorem acceptedChar_dashToDot (n : Nat) :
    acceptedChar (dashToDot n) = acceptedChar n := by
  unfold dashToDot
  split
  · next h => subst h; rfl
  · rfl

theorem dashToDot_dashToDot (n : Nat) : dashToDot (dashToDot n) = dashToDot n := by
  unfold dashToDot
  by_cases h : n = 45
  · subst h; rfl
  · rw [if_neg h]
    rw [if_neg h]

theorem jsToLower_dashToDot (n : Nat) :
    jsToLower (dashToDot n) = dashToDot (jsToLower n) := by
  unfold dashToDot jsToLower
  by_cases h : n = 45
  · subst h; rfl
  · rw [if_neg h]
    by_cases h2 : 65 ≤ n ∧ n ≤ 90
    · rw [if_pos h2, if_neg (by omega : ¬n + 32 = 45)]
    · rw [if_neg h2, if_neg h]

theorem jsTrim_map_dashToDot (s : JSString) :
    jsTrim (s.map dashToDot) = (jsTrim s).map dashToDot := by
  have hfun : isJsWhitespace ∘ dashToDot = isJsWhitespace :=
    funext isJsWhitespace_dashToDot
  unfold jsTrim
  rw [List.dropWhile_map, hfun, ← List.map_reverse, List.dropWhile_map, hfun,
    ← List.map_reverse]

theorem map_jsToLower_map_dashToDot (s : JSString) :
    (s.map dashToDot).map jsToLower = (s.map jsToLower).map dashToDot := by
  rw [List.map_map, List.map_map]
  exact List.map_congr_left (fun x _ => jsToLower_dashToDot x)

/-- C6: replacing every `-` of the input by `.` changes neither whether
parsing succeeds nor, on success, the resulting version. -/
theorem version_from_separator_equiv (s : JSString) :
    sameOutcome (Version.fromString s) (Version.fromString (s.map dashToDot)) = true := by
  have hA : (jsTrim (s.map dashToDot)).map jsToLower =
      ((jsTrim s).map jsToLower).map dashToDot := by
    rw [jsTrim_map_dashToDot, map_jsToLower_map_dashToDot]
  simp only [Version.fromString]
  rw [hA]
  have hfil : (((jsTrim s).map jsToLower).map dashToDot).filter
        (fun c => !acceptedChar c) =
      (((jsTrim s).map jsToLower).filter fun c => !acceptedChar c).map dashToDot := by
    rw [List.filter_map]
    congr 1
    exact List.filter_congr (fun x _ => by simp [Function.comp, acceptedChar_dashToDot x])
  rw [hfil, List.length_map]
  have hparts : (((jsTrim s).map jsToLower).map dashToDot).map dashToDot =
      ((jsTrim s).map jsToLower).map dashToDot := by
    rw [List.map_map]
    exact List.map_congr_left (fun x _ => dashToDot_dashToDot x)
  rw [hparts]
  by_cases hcond : 0 < (((jsTrim s).map jsToLower).filter fun c => !acceptedChar c).length
  · rw [if_pos hcond, if_pos hcond]
    rfl
  · rw [if_neg hcond, if_neg hcond]
    exact versionOfParts_take3 s (s.map dashToDot) _ _ rfl

/-! ### C7: `MapUtils.filter` -/

theorem mapSet_append {K V : Type} [DecidableEq K] (m : List (K × V)) (k : K)
    (v : V) (h : k ∉ m.map Prod.fst) : MapUtils.mapSet m k v = m ++ [(k, v)] := by
  unfold MapUtils.mapSet
  rw [if_neg h]

theorem filter_foldl_eq {K V : Type} [DecidableEq K] (p : K → V → Bool) :
    ∀ (m acc : List (K × V)),
      (∀ kv ∈ m, kv.1 ∉ acc.map Prod.fst) → (m.map Prod.fst).Nodup →
      m.foldl
          (fun aMap kv => if p kv.1 kv.2 then MapUtils.mapSet aMap kv.1 kv.2 else aMap)
          acc
        = acc ++ m.filter (fun kv => p kv.1 kv.2) := by
  intro m
  induction m with
  | nil =>
    intro acc _ _
    simp
  | cons kv t ih =>
    intro acc hdisj hnodup
    rw [List.map_cons, List.nodup_cons] at hnodup
    simp only [List.foldl_cons]
    by_cases hp : p kv.1 kv.2 = true
    · rw [if_pos hp, mapSet_append acc kv.1 kv.2 (hdisj kv (List.mem_cons_self _ _))]
      rw [ih (acc ++ [(kv.1, kv.2)]) ?hdisj2 hnodup.2]
      · rw [@List.filter_cons_of_pos (K × V) (fun kv => p kv.1 kv.2) kv t hp]
        simp [Prod.mk.eta, List.append_assoc]
      case hdisj2 =>
        intro kv' hkv'
        rw [List.map_append, List.mem_append]
        rintro (hin | hin)
        · exact hdisj kv' (List.mem_cons_of_mem _ hkv') hin
        · simp only [List.map_cons, List.map_nil, List.mem_singleton] at hin
          apply hnodup.1
          rw [← hin]
          exact List.mem_map_of_mem Prod.fst hkv'
    · rw [if_neg hp]
      rw [ih acc (fun kv' h' => hdisj kv' (List.mem_cons_of_mem _ h')) hnodup.2]
      rw [@List.filter_cons_of_neg (K × V) (fun kv => p kv.1 kv.2) kv t hp]

/-- C7: on a mapping with (as in a JS `Map`) pairwise distinct keys,
`MapUtils.filter` keeps exactly the entries satisfying the predicate, in their
original order (a sublist of the input), and a null input yields the empty
mapping. -/
theorem mapUtils_filter_spec {K V : Type} [DecidableEq K]
    (m : List (K × V)) (p : K → V → Bool) (h : (m.map Prod.fst).Nodup) :
    (∀ kv : K × V, kv ∈ MapUtils.filter (some m) p ↔ kv ∈ m ∧ p kv.1 kv.2 = true) ∧
    (MapUtils.filter (some m) p).Sublist m ∧
    MapUtils.filter (none : Option (List (K × V))) p = [] := by
  have hfold : MapUtils.filter (some m) p = m.filter (fun kv => p kv.1 kv.2) := by
    unfold MapUtils.filter
    exact filter_foldl_eq p m [] (by simp) h
  refine ⟨?_, ?_, rfl⟩
  · intro kv
    rw [hfold]
    exact List.mem_filter
  · rw [hfold]
    exact List.filter_sublist m

/-- C7 witness: the theorem at the concrete mapping `[(1, 2), (3, 4)]` with
the predicate selecting key 1. -/
theorem mapUtils_filter_spec_witness :
    (((1 : Nat), (2 : Nat)) ∈ MapUtils.filter (some [(1, 2), (3, 4)])
        (fun k (_ : Nat) => k == 1) ↔
      ((1 : Nat), (2 : Nat)) ∈ [(1, 2), (3, 4)] ∧
        (((1 : Nat), (2 : Nat)).1 == 1) = true) ∧
    (MapUtils.filter (some [((1 : Nat), (2 : Nat)), (3, 4)])
        (fun k (_ : Nat) => k == 1)).Sublist [(1, 2), (3, 4)] :=
  ⟨(mapUtils_filter_spec [(1, 2), (3, 4)] (fun k _ => k == 1) (by decide)).1 (1, 2),
    (mapUtils_filter_spec [(1, 2), (3, 4)] (fun k _ => k == 1) (by decide)).2.1⟩
